import Mathlib

/-!
Verification development for the cchistory core: the source patcher
(`cli-patcher.ts`), the trace stream parser (`jsonl-parser.ts`), the request
selector and tool cataloguer (`request-filter.ts`), the content normalizer
(`content-extractor.ts`) and the report formatter (`output-formatter.ts`).
Script texts are embedded as `List Char`; thrown JavaScript errors are
embedded as `Except String`.
-/

namespace CCH

/-! ## Source patcher (`src/core/cli-patcher.ts`) -/

/-- The marker: `const warningText = "It looks like your version of Claude Code"`. -/
def warningText : List Char := ("It looks like your version of Claude Code").toList

/-- The literal token scanned for backwards: `"function"`. -/
def functionTok : List Char := ("function").toList

/-- The inert replacement written after the kept declaration:
`" /* Version check disabled by patch */ }"` (comment plus closing brace). -/
def patchComment : List Char := (" /* Version check disabled by patch */ \x7d").toList

/-- `text.indexOf(pat)` starting at accumulated index `i`: first index at which
`pat` is a prefix of the rest, or `none`. -/
def findSub (pat : List Char) : List Char → Nat → Option Nat
  | l, i =>
    if pat.isPrefixOf l then some i
    else
      match l with
      | [] => none
      | _ :: rest => findSub pat rest (i + 1)

/-- Backward scan `for (let i = warningIndex; i >= 0; i--)` testing
`cliContent.substring(i, i + 8) === "function"`. -/
def findFunDown (text : List Char) : Nat → Option Nat
  | 0 => if functionTok.isPrefixOf text then some 0 else none
  | i + 1 =>
    if functionTok.isPrefixOf (text.drop (i + 1)) then some (i + 1)
    else findFunDown text i

/-- Forward scan for the first occurrence of character `c`, `i` being the
accumulated absolute index of the head of `l`. -/
def findCharFrom (c : Char) : List Char → Nat → Option Nat
  | [], _ => none
  | x :: rest, i => if x = c then some i else findCharFrom c rest (i + 1)

/-- Depth-counted brace scan: `braceCount` starts at 1 at `openBraceIndex + 1`;
`{` increments, `}` decrements, the index where the count returns to 0 is the
matching closing brace. `i` is the absolute index of the head of `l`. -/
def scanBrace : List Char → Nat → Nat → Option Nat
  | [], _, _ => none
  | x :: rest, i, depth =>
    if x = '{' then scanBrace rest (i + 1) (depth + 1)
    else if x = '}' then
      if depth = 1 then some i else scanBrace rest (i + 1) (depth - 1)
    else scanBrace rest (i + 1) depth

/-- `PatchResult` of `cli-patcher.ts`. -/
structure PatchResult where
  patched : Bool
  content : List Char
  message : Option String
deriving DecidableEq, Repr

/-- `patchCliVersionCheck` of `cli-patcher.ts`: locate the marker, scan back
for `"function"`, forward for `{`, depth-scan for the matching `}`, and splice
the declaration plus the inert comment over the function body.  A thrown
`Error` is an `Except.error` carrying the thrown message. -/
def patchCliVersionCheck (cliContent : List Char) : Except String PatchResult :=
  match findSub warningText cliContent 0 with
  | none =>
      .ok ⟨false, cliContent, some "Warning text not found - version check may not exist"⟩
  | some warningIndex =>
    match findFunDown cliContent warningIndex with
    | none => .error "Could not find function declaration before warning text"
    | some functionIndex =>
      match findCharFrom '{' (cliContent.drop functionIndex) functionIndex with
      | none => .error "Could not find opening brace after function declaration"
      | some openBraceIndex =>
        match scanBrace (cliContent.drop (openBraceIndex + 1)) (openBraceIndex + 1) 1 with
        | none => .error "Could not find matching closing brace"
        | some closeBraceIndex =>
          let functionDeclaration :=
            (cliContent.drop functionIndex).take (openBraceIndex + 1 - functionIndex)
          let patchedContent :=
            cliContent.take functionIndex ++ (functionDeclaration ++ patchComment)
              ++ cliContent.drop (closeBraceIndex + 1)
          .ok ⟨true, patchedContent, some "Version check successfully patched"⟩

theorem findCharFrom_le {c : Char} :
    ∀ (l : List Char) (i j : Nat), findCharFrom c l i = some j → i ≤ j ∧ j - i < l.length := by
  intro l
  induction l with
  | nil => intro i j h; simp [findCharFrom] at h
  | cons x rest ih =>
    intro i j h
    by_cases hx : x = c
    · simp [findCharFrom, hx] at h
      simp only [List.length_cons]
      omega
    · simp [findCharFrom, hx] at h
      have := ih (i + 1) j h
      simp only [List.length_cons]
      omega

theorem scanBrace_le :
    ∀ (l : List Char) (i d j : Nat), scanBrace l i d = some j → i ≤ j ∧ j - i < l.length := by
  intro l
  induction l with
  | nil => intro i d j h; simp [scanBrace] at h
  | cons x rest ih =>
    intro i d j h
    simp only [scanBrace] at h
    split at h
    · have := ih (i + 1) (d + 1) j h
      simp only [List.length_cons]; omega
    · split at h
      · split at h
        · simp at h; simp only [List.length_cons]; omega
        · have := ih (i + 1) (d - 1) j h
          simp only [List.length_cons]; omega
      · have := ih (i + 1) d j h
        simp only [List.length_cons]; omega

theorem findSub_le :
    ∀ (l pat : List Char) (i j : Nat),
      findSub pat l i = some j → i ≤ j ∧ pat.isPrefixOf (l.drop (j - i)) := by
  intro l
  induction l with
  | nil =>
    intro pat i j h
    by_cases hp : pat.isPrefixOf ([] : List Char)
    · simp [findSub, hp] at h
      subst h
      simpa using hp
    · simp [findSub, hp] at h
  | cons x rest ih =>
    intro pat i j h
    by_cases hp : pat.isPrefixOf (x :: rest)
    · simp [findSub, hp] at h
      subst h
      simpa using hp
    · simp [findSub, hp] at h
      have := ih pat (i + 1) j h
      refine ⟨by omega, ?_⟩
      have hd : (x :: rest).drop (j - i) = rest.drop (j - (i + 1)) := by
        have hij : i + 1 ≤ j := this.1
        have he : j - i = (j - (i + 1)) + 1 := by omega
        simp [he]
      rw [hd]
      exact this.2

theorem findFunDown_le (s : List Char) :
    ∀ (wi fi : Nat), findFunDown s wi = some fi →
      fi ≤ wi ∧ functionTok.isPrefixOf (s.drop fi) := by
  intro wi
  induction wi with
  | zero =>
    intro fi h
    by_cases hp : functionTok.isPrefixOf s
    · simp [findFunDown, hp] at h
      subst h
      simpa using hp
    · simp [findFunDown, hp] at h
  | succ n ih =>
    intro fi h
    by_cases hp : functionTok.isPrefixOf (s.drop (n + 1))
    · simp [findFunDown, hp] at h
      subst h
      exact ⟨Nat.le_refl _, hp⟩
    · simp [findFunDown, hp] at h
      have := ih fi h
      exact ⟨by omega, this.2⟩

/-- C2: for every script text containing the marker for which the backward
function scan, the forward brace scan, and the depth-counted matching scan all
succeed (the enclosing function has balanced braces), `patchCliVersionCheck`
returns `patched = true`, preserves every byte before the found `"function"`
token, preserves the declaration up to and including its opening brace,
preserves every byte after the matching closing brace, and replaces the body
with the single inert comment plus closing brace. -/
theorem patchCliVersionCheck_frame (s : List Char) (wi fi oi ci : Nat)
    (hw : findSub warningText s 0 = some wi)
    (hf : findFunDown s wi = some fi)
    (ho : findCharFrom '{' (s.drop fi) fi = some oi)
    (hc : scanBrace (s.drop (oi + 1)) (oi + 1) 1 = some ci) :
    ∃ r, patchCliVersionCheck s = .ok r ∧ r.patched = true ∧
      r.content = s.take (oi + 1) ++ patchComment ++ s.drop (ci + 1) ∧
      r.content.take fi = s.take fi ∧
      r.content.take (oi + 1) = s.take (oi + 1) ∧
      r.content.drop (oi + 1 + patchComment.length) = s.drop (ci + 1) := by
  obtain ⟨hfi_le, -⟩ := findFunDown_le s wi fi hf
  obtain ⟨hoi_ge, hoi_lt⟩ := findCharFrom_le (s.drop fi) fi oi ho
  obtain ⟨hci_ge, hci_lt⟩ := scanBrace_le (s.drop (oi + 1)) (oi + 1) 1 ci hc
  rw [List.length_drop] at hoi_lt hci_lt
  have hfi_lt : fi < s.length := by omega
  have hoi_slt : oi < s.length := by omega
  have hrun : patchCliVersionCheck s =
      .ok ⟨true,
        s.take fi ++ ((s.drop fi).take (oi + 1 - fi) ++ patchComment) ++ s.drop (ci + 1),
        some "Version check successfully patched"⟩ := by
    simp only [patchCliVersionCheck, hw, hf, ho, hc]
  have hsplit : s.take fi ++ (s.drop fi).take (oi + 1 - fi) = s.take (oi + 1) := by
    rw [← List.take_add]
    congr 1
    omega
  have hcontent :
      s.take fi ++ ((s.drop fi).take (oi + 1 - fi) ++ patchComment) ++ s.drop (ci + 1)
        = s.take (oi + 1) ++ patchComment ++ s.drop (ci + 1) := by
    rw [← hsplit]
    simp [List.append_assoc]
  have hlen_take : (s.take (oi + 1)).length = oi + 1 := by
    rw [List.length_take]; omega
  refine ⟨_, hrun, rfl, hcontent, ?_, ?_, ?_⟩
  · rw [hcontent]
    rw [List.append_assoc, List.take_append_of_le_length (by omega : fi ≤ (s.take (oi + 1)).length)]
    rw [List.take_take]
    congr 1
    omega
  · rw [hcontent]
    rw [List.append_assoc,
      List.take_append_of_le_length (by omega : oi + 1 ≤ (s.take (oi + 1)).length)]
    rw [List.take_take, Nat.min_self]
  · rw [hcontent]
    have hdl := List.drop_left (s.take (oi + 1) ++ patchComment) (s.drop (ci + 1))
    rw [List.length_append, hlen_take] at hdl
    exact hdl

/-- Witness for `patchCliVersionCheck_frame` on a concrete balanced script. -/
theorem patchCliVersionCheck_frame_witness :
    ∃ r, patchCliVersionCheck
        (("function f()\x7bIt looks like your version of Claude Code\x7dtail").toList) = .ok r ∧
      r.patched = true ∧
      r.content = (("function f()\x7bIt looks like your version of Claude Code\x7dtail").toList).take
          (12 + 1) ++ patchComment ++
          (("function f()\x7bIt looks like your version of Claude Code\x7dtail").toList).drop (54 + 1) ∧
      r.content.take 0 = (("function f()\x7bIt looks like your version of Claude Code\x7dtail").toList).take 0 ∧
      r.content.take (12 + 1) =
        (("function f()\x7bIt looks like your version of Claude Code\x7dtail").toList).take (12 + 1) ∧
      r.content.drop (12 + 1 + patchComment.length) =
        (("function f()\x7bIt looks like your version of Claude Code\x7dtail").toList).drop (54 + 1) :=
  patchCliVersionCheck_frame _ 13 0 12 54 (by decide) (by decide) (by decide) (by decide)

/-- C3: total case analysis of `patchCliVersionCheck`: marker absent returns
`patched = false` with the input unchanged and no error; marker present fails
(with a thrown error) exactly when the backward function scan, the forward
open-brace scan, or the depth-counted close-brace scan fails, and otherwise
every returned result has `patched = true`. -/
theorem patchCliVersionCheck_cases (s : List Char) :
    (findSub warningText s 0 = none →
      patchCliVersionCheck s =
        .ok ⟨false, s, some "Warning text not found - version check may not exist"⟩) ∧
    (∀ wi, findSub warningText s 0 = some wi →
      (((∃ e, patchCliVersionCheck s = .error e) ↔
        (findFunDown s wi = none ∨
         (∃ fi, findFunDown s wi = some fi ∧ findCharFrom '{' (s.drop fi) fi = none) ∨
         (∃ fi oi, findFunDown s wi = some fi ∧ findCharFrom '{' (s.drop fi) fi = some oi ∧
            scanBrace (s.drop (oi + 1)) (oi + 1) 1 = none))) ∧
        (∀ r, patchCliVersionCheck s = .ok r → r.patched = true))) := by
  constructor
  · intro h
    simp only [patchCliVersionCheck, h]
  · intro wi hw
    rcases hff : findFunDown s wi with _ | fi
    · have hrun : patchCliVersionCheck s =
          .error "Could not find function declaration before warning text" := by
        simp only [patchCliVersionCheck, hw, hff]
      refine ⟨⟨fun _ => Or.inl rfl, fun _ => ⟨_, hrun⟩⟩, ?_⟩
      intro r hr
      rw [hrun] at hr
      simp at hr
    · rcases hfo : findCharFrom '{' (s.drop fi) fi with _ | oi
      · have hrun : patchCliVersionCheck s =
            .error "Could not find opening brace after function declaration" := by
          simp only [patchCliVersionCheck, hw, hff, hfo]
        refine ⟨⟨fun _ => Or.inr (Or.inl ⟨fi, rfl, hfo⟩), fun _ => ⟨_, hrun⟩⟩, ?_⟩
        intro r hr
        rw [hrun] at hr
        simp at hr
      · rcases hsb : scanBrace (s.drop (oi + 1)) (oi + 1) 1 with _ | ci
        · have hrun : patchCliVersionCheck s =
              .error "Could not find matching closing brace" := by
            simp only [patchCliVersionCheck, hw, hff, hfo, hsb]
          refine ⟨⟨fun _ => Or.inr (Or.inr ⟨fi, oi, rfl, hfo, hsb⟩), fun _ => ⟨_, hrun⟩⟩, ?_⟩
          intro r hr
          rw [hrun] at hr
          simp at hr
        · have hrun : patchCliVersionCheck s =
              .ok ⟨true,
                s.take fi ++ (((s.drop fi).take (oi + 1 - fi)) ++ patchComment)
                  ++ s.drop (ci + 1),
                some "Version check successfully patched"⟩ := by
            simp only [patchCliVersionCheck, hw, hff, hfo, hsb]
          constructor
          · constructor
            · intro ⟨e, he⟩
              rw [hrun] at he
              simp at he
            · intro hdisj
              exfalso
              rcases hdisj with h1 | ⟨fi2, h1, h2⟩ | ⟨fi2, oi2, h1, h2, h3⟩
              · simp at h1
              · injection h1 with h1
                subst h1
                rw [hfo] at h2
                simp at h2
              · injection h1 with h1
                subst h1
                rw [hfo] at h2
                injection h2 with h2
                subst h2
                rw [hsb] at h3
                simp at h3
          · intro r hr
            rw [hrun] at hr
            injection hr with hr
            rw [← hr]

/-- Witness for `patchCliVersionCheck_cases`: on a marker-free text the patcher
reports `patched = false` with the input returned verbatim. -/
theorem patchCliVersionCheck_cases_witness :
    patchCliVersionCheck (("no marker here").toList) =
      .ok ⟨false, ("no marker here").toList,
        some "Warning text not found - version check may not exist"⟩ :=
  (patchCliVersionCheck_cases (("no marker here").toList)).1 (by decide)

/-! ## Trace stream parser (`src/core/jsonl-parser.ts`) -/

/-- JS whitespace for `trim` / `\s`, modelled by `Char.isWhitespace`. -/
def isWs (c : Char) : Bool := c.isWhitespace

/-- JS `String.prototype.trim`: strip leading and trailing whitespace. -/
def trimChars (l : List Char) : List Char :=
  ((l.dropWhile isWs).reverse.dropWhile isWs).reverse

/-- JS `split("\n")`: split at every newline, keeping empty pieces. -/
def splitNl : List Char → List (List Char)
  | [] => [[]]
  | c :: rest =>
    if c = '\n' then [] :: splitNl rest
    else
      match splitNl rest with
      | [] => [[c]]
      | p :: ps => (c :: p) :: ps

/-- The non-blank lines the parser decodes, in input order:
`content.trim().split("\n").filter((line) => line.trim())`. -/
def nonBlankLines (content : List Char) : List (List Char) :=
  (splitNl (trimChars content)).filter (fun l => !(trimChars l).isEmpty)

/-- The throwing `.map(JSON.parse)`: a failure on any line aborts the whole
map, and no partial list is returned. -/
def mapDecode (d : List Char → Except String α) : List (List Char) → Except String (List α)
  | [] => .ok []
  | l :: rest =>
    match d l with
    | .error e => .error e
    | .ok a =>
      match mapDecode d rest with
      | .error e => .error e
      | .ok as => .ok (a :: as)

/-- `parseJsonl` of `jsonl-parser.ts`, parameterized by the runtime decoder
`d` (`JSON.parse` plus the cast to `RequestResponsePair`, a platform builtin):
trim, split on newlines, drop lines blank after trimming, decode each
remaining line. -/
def parseJsonl (d : List Char → Except String α) (content : List Char) :
    Except String (List α) :=
  mapDecode d (nonBlankLines content)

/-! ## Data model (`src/types/request.ts`)

`InputSchema` and the opaque `response` map are arbitrary structured
documents; they are embedded as `Json`.  The unused optional `temperature`
(a float) and the request `headers` map play no role in any claim and are
omitted from the embedding. -/

/-- JSON values (the `unknown` / `InputSchema` structured documents). -/
inductive Json where
  | null : Json
  | bool : Bool → Json
  | num : Int → Json
  | str : String → Json
  | arr : List Json → Json
  | obj : List (String × Json) → Json

/-- `Tool` of `request.ts`. -/
structure Tool where
  name : String
  description : String
  input_schema : Json

/-- `MessageContent` of `request.ts` (`cache_control` kept as its `type`). -/
structure MessageContent where
  type : String
  text : Option String
  cache_control : Option String

/-- A message's `content`: `string | MessageContent[]`; `other` stands for a
runtime value of any other shape, which `extractUserMessage` defends against
with its final fallthrough branch. -/
inductive MsgContent where
  | str : String → MsgContent
  | blocks : List MessageContent → MsgContent
  | other : MsgContent

/-- `Message` of `request.ts`. -/
structure Message where
  role : String
  content : MsgContent

/-- `SystemBlock` of `request.ts`. -/
structure SystemBlock where
  type : String
  text : String
  cache_control : Option String

/-- `RequestBody` of `request.ts`.  `model` is optional here because the
selector reads it through `pair.request?.body?.model`, so a missing value
must be representable. -/
structure RequestBody where
  model : Option String
  messages : List Message
  system : Option (List SystemBlock)
  tools : Option (List Tool)

/-- `Request` of `request.ts` (headers omitted, see above). -/
structure Request where
  timestamp : Nat
  method : String
  url : String
  body : RequestBody

/-- `RequestResponsePair` of `request.ts`; the response is an opaque map. -/
structure RequestResponsePair where
  request : Request
  response : Json

/-! ## Request selector and tool cataloguer (`src/core/request-filter.ts`) -/

/-- JS `m.toLowerCase()`. -/
def toLowerStr (m : String) : String := String.mk (m.data.map Char.toLower)

/-- JS `String.prototype.includes`. -/
def containsSub (pat l : List Char) : Bool := (findSub pat l 0).isSome

/-- `model.toLowerCase().includes("haiku")`. -/
def isHaiku (m : String) : Bool := containsSub (("haiku").toList) (toLowerStr m).data

/-- The predicate of `filterNonHaikuRequests`:
`pair.request?.body?.model && !pair.request.body.model.toLowerCase().includes("haiku")`.
JS truthiness makes a missing model and the empty-string model both falsy. -/
def nonHaikuPred (p : RequestResponsePair) : Bool :=
  match p.request.body.model with
  | none => false
  | some m => !m.isEmpty && !isHaiku m

/-- `filterNonHaikuRequests` of `request-filter.ts`. -/
def filterNonHaikuRequests (pairs : List RequestResponsePair) : List RequestResponsePair :=
  pairs.filter nonHaikuPred

/-- The predicate of `filterRequestsWithTools`:
`pair.request?.body?.tools && Array.isArray(...) && ....length > 0`. -/
def toolsPred (p : RequestResponsePair) : Bool :=
  match p.request.body.tools with
  | none => false
  | some ts => !ts.isEmpty

/-- `filterRequestsWithTools` of `request-filter.ts`. -/
def filterRequestsWithTools (pairs : List RequestResponsePair) : List RequestResponsePair :=
  pairs.filter toolsPred

/-- JS truthiness of `pair.request.body.system`: any present array is truthy,
including the empty one. -/
def systemTruthy (p : RequestResponsePair) : Bool :=
  p.request.body.system.isSome

/-- `(pair.request.body.tools?.length || 0)`. -/
def toolCount (p : RequestResponsePair) : Nat :=
  match p.request.body.tools with
  | none => 0
  | some ts => ts.length

/-- Stable insertion: `x` goes in front of the first element it may precede.
Together with `sortByLe` this models the stable (ES2019)
`Array.prototype.sort` run with a consistent comparator, where
`le a b` renders `comparator(a, b) <= 0`. -/
def insertLe (le : α → α → Bool) (x : α) : List α → List α
  | [] => [x]
  | y :: ys => if le x y then x :: y :: ys else y :: insertLe le x ys

/-- Stable sort by `le` (insertion sort). -/
def sortByLe (le : α → α → Bool) : List α → List α
  | [] => []
  | x :: xs => insertLe le x (sortByLe le xs)

/-- The comparator of `selectBestRequest`:
`(a, b) => (b.request.body.tools?.length || 0) - (a.request.body.tools?.length || 0)`,
so `a` may precede `b` exactly when the difference is `<= 0`. -/
def toolCountLe (a b : RequestResponsePair) : Bool :=
  decide (toolCount b ≤ toolCount a)

/-- `requestsWithToolsAndSystemPrompt` of `selectBestRequest`:
`filterRequestsWithTools(nonHaikuPairs).filter((pair) => pair.request.body.system)`. -/
def toolsSystemTier (pairs : List RequestResponsePair) : List RequestResponsePair :=
  (filterRequestsWithTools (filterNonHaikuRequests pairs)).filter systemTruthy

/-- `selectBestRequest` of `request-filter.ts`.  The source's
`length > 0` guard followed by `[0]` indexing is rendered as one `head?`
match per tier; the thrown `Error` is an `Except.error`. -/
def selectBestRequest (pairs : List RequestResponsePair) :
    Except String RequestResponsePair :=
  match (sortByLe toolCountLe (toolsSystemTier pairs)).head? with
  | some r => .ok r
  | none =>
    match (filterNonHaikuRequests pairs).head? with
    | some r => .ok r
    | none => .error "No non-Haiku request found in the log"

/-- Code-point lexicographic order on character lists; models the sign of
`a.name.localeCompare(b.name)` (locale-aware collation restricted to the
code-point order the embedding can express). -/
def lexLe : List Char → List Char → Bool
  | [], _ => true
  | _ :: _, [] => false
  | a :: as, b :: bs =>
    if a < b then true
    else if b < a then false
    else lexLe as bs

/-- `(a, b) => a.name.localeCompare(b.name)` rendered as `<= 0`. -/
def nameLe (a b : Tool) : Bool := lexLe a.name.data b.name.data

/-- The predicate of `filterAndSortTools`: `!tool.name.startsWith("mcp__")`. -/
def notMcp (t : Tool) : Bool := !(("mcp__").toList.isPrefixOf t.name.data)

/-- `filterAndSortTools` of `request-filter.ts`. -/
def filterAndSortTools (tools : Option (List Tool)) : List Tool :=
  match tools with
  | none => []
  | some ts => sortByLe nameLe (ts.filter notMcp)

/-! ## List and sort lemmas -/

theorem mem_of_headq {l : List α} {a : α} (h : l.head? = some a) : a ∈ l := by
  cases l with
  | nil => simp at h
  | cons x xs =>
    simp at h
    subst h
    exact List.mem_cons_self x xs

theorem headq_of_ne_nil {l : List α} (h : l ≠ []) : ∃ a, l.head? = some a := by
  cases l with
  | nil => exact absurd rfl h
  | cons x xs => exact ⟨x, rfl⟩

theorem filter_filter_eq (p q : α → Bool) :
    ∀ l : List α, (l.filter p).filter q = l.filter (fun a => p a && q a) := by
  intro l
  induction l with
  | nil => rfl
  | cons a as ih =>
    by_cases hp : p a <;> by_cases hq : q a <;> simp [List.filter_cons, hp, hq, ih]

theorem mem_insertLe (le : α → α → Bool) (x : α) :
    ∀ (l : List α) (a : α), a ∈ insertLe le x l ↔ a = x ∨ a ∈ l := by
  intro l
  induction l with
  | nil => intro a; simp [insertLe]
  | cons y ys ih =>
    intro a
    simp only [insertLe]
    split
    · simp [List.mem_cons]
    · simp only [List.mem_cons, ih]
      tauto

theorem insertLe_perm (le : α → α → Bool) (x : α) :
    ∀ l : List α, List.Perm (insertLe le x l) (x :: l) := by
  intro l
  induction l with
  | nil => exact List.Perm.refl _
  | cons y ys ih =>
    simp only [insertLe]
    split
    · exact List.Perm.refl _
    · exact (List.Perm.cons y ih).trans (List.Perm.swap x y ys)

theorem sortByLe_perm (le : α → α → Bool) :
    ∀ l : List α, List.Perm (sortByLe le l) l := by
  intro l
  induction l with
  | nil => exact List.Perm.refl _
  | cons x xs ih =>
    exact (insertLe_perm le x (sortByLe le xs)).trans (List.Perm.cons x ih)

theorem pairwise_insertLe (le : α → α → Bool)
    (htot : ∀ a b, le a b = true ∨ le b a = true)
    (htrans : ∀ a b c, le a b = true → le b c = true → le a c = true) (x : α) :
    ∀ l : List α, List.Pairwise (fun a b => le a b = true) l →
      List.Pairwise (fun a b => le a b = true) (insertLe le x l) := by
  intro l
  induction l with
  | nil => intro _; simp [insertLe]
  | cons y ys ih =>
    intro hp
    rcases List.pairwise_cons.mp hp with ⟨hy, hys⟩
    simp only [insertLe]
    by_cases hxy : le x y = true
    · simp only [hxy, if_true]
      refine List.pairwise_cons.mpr ⟨?_, hp⟩
      intro z hz
      rcases List.mem_cons.mp hz with rfl | hz2
      · exact hxy
      · exact htrans x y z hxy (hy z hz2)
    · simp only [hxy, if_false]
      refine List.pairwise_cons.mpr ⟨?_, ih hys⟩
      intro z hz
      rcases (mem_insertLe le x ys z).mp hz with rfl | hz2
      · rcases htot z y with h | h
        · exact absurd h hxy
        · exact h
      · exact hy z hz2

theorem sortByLe_pairwise (le : α → α → Bool)
    (htot : ∀ a b, le a b = true ∨ le b a = true)
    (htrans : ∀ a b c, le a b = true → le b c = true → le a c = true) :
    ∀ l : List α, List.Pairwise (fun a b => le a b = true) (sortByLe le l) := by
  intro l
  induction l with
  | nil => simp [sortByLe]
  | cons x xs ih => exact pairwise_insertLe le htot htrans x (sortByLe le xs) ih

theorem headq_insertLe (le : α → α → Bool) (x : α) (l : List α) :
    (insertLe le x l).head? = some (match l.head? with
      | none => x
      | some y => if le x y then x else y) := by
  cases l with
  | nil => rfl
  | cons y ys =>
    by_cases hxy : le x y = true
    · simp [insertLe, hxy]
    · simp [insertLe, hxy]

/-- The earliest element attaining the maximal value of `f`, by one pass:
later elements replace the current best only when strictly greater. -/
def firstMaxBy (f : α → Nat) : List α → Option α
  | [] => none
  | x :: xs =>
    match firstMaxBy f xs with
    | none => some x
    | some m => if f x < f m then some m else some x

theorem firstMaxBy_isSome (f : α → Nat) :
    ∀ l : List α, l ≠ [] → ∃ m, firstMaxBy f l = some m := by
  intro l h
  cases l with
  | nil => exact absurd rfl h
  | cons x xs =>
    simp only [firstMaxBy]
    rcases hm : firstMaxBy f xs with _ | m
    · exact ⟨x, rfl⟩
    · by_cases hlt : f x < f m
      · exact ⟨m, by simp [hlt]⟩
      · exact ⟨x, by simp [hlt]⟩

theorem headq_sortByLe (f : α → Nat) :
    ∀ l : List α, (sortByLe (fun a b => decide (f b ≤ f a)) l).head? = firstMaxBy f l := by
  intro l
  induction l with
  | nil => rfl
  | cons x xs ih =>
    simp only [sortByLe, firstMaxBy]
    rw [headq_insertLe, ih]
    rcases hm : firstMaxBy f xs with _ | m
    · rfl
    · by_cases hle : f m ≤ f x
      · simp [hle, Nat.not_lt.mpr hle]
      · simp [hle, Nat.lt_of_not_le hle]

theorem firstMaxBy_spec (f : α → Nat) :
    ∀ (l : List α) (r : α), firstMaxBy f l = some r →
      ∃ i, ∃ hi : i < l.length, l.get ⟨i, hi⟩ = r ∧
        (∀ j (hj : j < l.length), f (l.get ⟨j, hj⟩) ≤ f r) ∧
        (∀ j (hj : j < l.length), j < i → f (l.get ⟨j, hj⟩) < f r) := by
  intro l
  induction l with
  | nil => intro r h; simp [firstMaxBy] at h
  | cons x xs ih =>
    intro r h
    simp only [firstMaxBy] at h
    rcases hm : firstMaxBy f xs with _ | m
    · rw [hm] at h
      simp at h
      subst h
      have hxs : xs = [] := by
        cases xs with
        | nil => rfl
        | cons a as =>
          obtain ⟨m2, hm2⟩ := firstMaxBy_isSome f (a :: as) (by simp)
          rw [hm2] at hm
          simp at hm
      subst hxs
      refine ⟨0, by simp, rfl, ?_, ?_⟩
      · intro j hj
        simp only [List.length_cons, List.length_nil] at hj
        have : j = 0 := by omega
        subst this
        simp
      · intro j hj hj0
        omega
    · rw [hm] at h
      obtain ⟨i2, hi2, hget, hmax, hstrict⟩ := ih m hm
      by_cases hlt : f x < f m
      · simp [hlt] at h
        subst h
        refine ⟨i2 + 1, by simp only [List.length_cons]; omega, by simpa using hget, ?_, ?_⟩
        · intro j hj
          cases j with
          | zero => simpa using Nat.le_of_lt hlt
          | succ n =>
            simp only [List.get_cons_succ]
            exact hmax n (by simp only [List.length_cons] at hj; omega)
        · intro j hj hji
          cases j with
          | zero => simpa using hlt
          | succ n =>
            simp only [List.get_cons_succ]
            exact hstrict n (by simp only [List.length_cons] at hj; omega) (by omega)
      · simp [hlt] at h
        subst h
        refine ⟨0, by simp, by simp, ?_, ?_⟩
        · intro j hj
          cases j with
          | zero => simp
          | succ n =>
            simp only [List.get_cons_succ, List.get_cons_zero]
            exact Nat.le_trans (hmax n (by simp only [List.length_cons] at hj; omega))
              (Nat.le_of_not_lt hlt)
        · intro j hj hj0
          omega

theorem lexLe_total : ∀ a b : List Char, lexLe a b = true ∨ lexLe b a = true := by
  intro a
  induction a with
  | nil => intro b; left; rfl
  | cons x as ih =>
    intro b
    cases b with
    | nil => right; rfl
    | cons y bs =>
      by_cases hxy : x < y
      · left; simp [lexLe, hxy]
      · by_cases hyx : y < x
        · right; simp [lexLe, hyx]
        · rcases ih bs with h | h
          · left; simp [lexLe, hxy, hyx, h]
          · right; simp [lexLe, hxy, hyx, h]

theorem lexLe_trans :
    ∀ a b c : List Char, lexLe a b = true → lexLe b c = true → lexLe a c = true := by
  intro a
  induction a with
  | nil => intro b c _ _; rfl
  | cons x as ih =>
    intro b c h1 h2
    cases b with
    | nil => simp [lexLe] at h1
    | cons y bs =>
      cases c with
      | nil => simp [lexLe] at h2
      | cons z cs =>
        simp only [lexLe] at h1 h2 ⊢
        by_cases hxy : x < y
        · by_cases hyz : y < z
          · simp [lt_trans hxy hyz]
          · by_cases hzy : z < y
            · simp [hyz, hzy] at h2
            · have hy_eq : y = z := le_antisymm (not_lt.mp hzy) (not_lt.mp hyz)
              subst hy_eq
              simp [hxy]
        · by_cases hyx : y < x
          · simp [hxy, hyx] at h1
          · have hx_eq : x = y := le_antisymm (not_lt.mp hyx) (not_lt.mp hxy)
            subst hx_eq
            simp [lt_irrefl] at h1
            by_cases hxz : x < z
            · simp [hxz]
            · by_cases hzx : z < x
              · simp [hxz, hzx] at h2
              · have hz_eq : x = z := le_antisymm (not_lt.mp hzx) (not_lt.mp hxz)
                subst hz_eq
                simp [lt_irrefl] at h2 ⊢
                exact ih bs cs h1 h2

theorem nameLe_total : ∀ a b : Tool, nameLe a b = true ∨ nameLe b a = true := by
  intro a b
  exact lexLe_total a.name.data b.name.data

theorem nameLe_trans :
    ∀ a b c : Tool, nameLe a b = true → nameLe b c = true → nameLe a c = true := by
  intro a b c h1 h2
  exact lexLe_trans a.name.data b.name.data c.name.data h1 h2

/-! ## Parser lemmas -/

theorem mapDecode_ok_of_forall {α : Type} (d : List Char → Except String α) :
    ∀ ls : List (List Char), (∀ l ∈ ls, ∃ a, d l = .ok a) →
      ∃ out, mapDecode d ls = .ok out ∧ out.length = ls.length ∧
        ∀ i (hi : i < ls.length) (ho : i < out.length),
          d (ls.get ⟨i, hi⟩) = .ok (out.get ⟨i, ho⟩) := by
  intro ls
  induction ls with
  | nil =>
    intro _
    exact ⟨[], rfl, rfl, by intro i hi; simp at hi⟩
  | cons l rest ih =>
    intro h
    obtain ⟨a, ha⟩ := h l (List.mem_cons_self l rest)
    obtain ⟨out, hout, hlen, hidx⟩ := ih (fun x hx => h x (List.mem_cons_of_mem l hx))
    refine ⟨a :: out, ?_, by simp [hlen], ?_⟩
    · simp [mapDecode, ha, hout]
    · intro i hi ho
      cases i with
      | zero => simpa using ha
      | succ n =>
        simp only [List.get_cons_succ]
        exact hidx n (by simp only [List.length_cons] at hi; omega)
          (by simp only [List.length_cons] at ho; omega)

theorem mapDecode_error_of_mem {α : Type} (d : List Char → Except String α) :
    ∀ (ls : List (List Char)) (l : List Char) (e : String), l ∈ ls → d l = .error e →
      ∃ e2, mapDecode d ls = .error e2 := by
  intro ls
  induction ls with
  | nil => intro l e h _; simp at h
  | cons x rest ih =>
    intro l e hmem hde
    rcases List.mem_cons.mp hmem with rfl | hmem2
    · exact ⟨e, by simp [mapDecode, hde]⟩
    · rcases hdx : d x with e3 | a
      · exact ⟨e3, by simp [mapDecode, hdx]⟩
      · obtain ⟨e2, h2⟩ := ih l e hmem2 hde
        exact ⟨e2, by simp [mapDecode, hdx, h2]⟩

/-- C5: `parseJsonl` keeps the (trimmed) input's lines as an in-order
subselection dropping exactly the blank-after-trimming ones, decodes each
remaining line into one record preserving order, aborts the whole parse with
no partial output if any single non-blank line is undecodable, and is
deterministic. -/
theorem parseJsonl_lines_spec {α : Type} (d : List Char → Except String α)
    (content : List Char) :
    (List.Sublist (nonBlankLines content) (splitNl (trimChars content)) ∧
      ∀ l ∈ nonBlankLines content, (trimChars l).isEmpty = false) ∧
    ((∀ l ∈ nonBlankLines content, ∃ a, d l = .ok a) →
      ∃ out, parseJsonl d content = .ok out ∧
        out.length = (nonBlankLines content).length ∧
        ∀ i (hi : i < (nonBlankLines content).length) (ho : i < out.length),
          d ((nonBlankLines content).get ⟨i, hi⟩) = .ok (out.get ⟨i, ho⟩)) ∧
    ((∃ l ∈ nonBlankLines content, ∃ e, d l = .error e) →
      ∃ e, parseJsonl d content = .error e) ∧
    parseJsonl d content = parseJsonl d content := by
  refine ⟨⟨List.filter_sublist _, ?_⟩, ?_, ?_, rfl⟩
  · intro l hl
    have := List.of_mem_filter hl
    simpa using this
  · intro h
    exact mapDecode_ok_of_forall d (nonBlankLines content) h
  · rintro ⟨l, hl, e, he⟩
    exact mapDecode_error_of_mem d (nonBlankLines content) l e hl he

/-- A concrete always-succeeding decoder for the parser witnesses. -/
def lenDecoder : List Char → Except String Nat := fun l => .ok l.length

/-- Witness for `parseJsonl_lines_spec`: an always-succeeding decoder on a
two-record capture with a blank line. -/
theorem parseJsonl_lines_witness :
    ∃ out, parseJsonl lenDecoder (("ab\n\ncd").toList) = .ok out ∧
      out.length = (nonBlankLines (("ab\n\ncd").toList)).length ∧
      ∀ i (hi : i < (nonBlankLines (("ab\n\ncd").toList)).length) (ho : i < out.length),
        lenDecoder ((nonBlankLines (("ab\n\ncd").toList)).get ⟨i, hi⟩)
          = .ok (out.get ⟨i, ho⟩) :=
  (parseJsonl_lines_spec lenDecoder (("ab\n\ncd").toList)).2.1
    (fun l _ => ⟨l.length, rfl⟩)

/-! ## Selector theorems -/

theorem nonHaikuPred_iff (p : RequestResponsePair) :
    nonHaikuPred p = true ↔
      ∃ m, p.request.body.model = some m ∧ m ≠ "" ∧ isHaiku m = false := by
  unfold nonHaikuPred
  rcases hmod : p.request.body.model with _ | m
  · simp
  · simp only [Bool.and_eq_true, Bool.not_eq_true']
    constructor
    · rintro ⟨h1, h2⟩
      exact ⟨m, rfl, fun he => by rw [he] at h1; exact absurd h1 (by decide), h2⟩
    · rintro ⟨m2, hm2, hne, hh⟩
      injection hm2 with hm2
      subst hm2
      refine ⟨?_, hh⟩
      rcases hb : m.isEmpty with _ | _
      · rfl
      · exact absurd ((String.isEmpty_iff m).mp hb) hne

theorem selectBestRequest_mem_nonHaiku (pairs : List RequestResponsePair)
    (r : RequestResponsePair) (hr : selectBestRequest pairs = .ok r) :
    r ∈ filterNonHaikuRequests pairs := by
  rcases hs : (sortByLe toolCountLe (toolsSystemTier pairs)).head? with _ | r0
  · rcases hf : (filterNonHaikuRequests pairs).head? with _ | r1
    · simp [selectBestRequest, hs, hf] at hr
    · simp [selectBestRequest, hs, hf] at hr
      subst hr
      exact mem_of_headq hf
  · simp [selectBestRequest, hs] at hr
    subst hr
    have h1 : r0 ∈ sortByLe toolCountLe (toolsSystemTier pairs) := mem_of_headq hs
    have h2 : r0 ∈ toolsSystemTier pairs :=
      (sortByLe_perm toolCountLe (toolsSystemTier pairs)).mem_iff.mp h1
    have h3 := (List.mem_filter.mp h2).1
    exact (List.mem_filter.mp h3).1

/-- C1 (amended): the preferred tier keeps exactly the surviving records with
a non-empty tool list and a *present* (possibly empty) system-block field;
when it is non-empty the selector returns the record of maximal tool count
that is earliest in original capture order among the maximal ones. -/
theorem selectBestRequest_best (pairs : List RequestResponsePair)
    (h : toolsSystemTier pairs ≠ []) :
    toolsSystemTier pairs =
      pairs.filter (fun p => nonHaikuPred p && (toolsPred p && systemTruthy p)) ∧
    ∃ r, selectBestRequest pairs = .ok r ∧
      ∃ i, ∃ hi : i < (toolsSystemTier pairs).length,
        (toolsSystemTier pairs).get ⟨i, hi⟩ = r ∧
        (∀ j (hj : j < (toolsSystemTier pairs).length),
          toolCount ((toolsSystemTier pairs).get ⟨j, hj⟩) ≤ toolCount r) ∧
        (∀ j (hj : j < (toolsSystemTier pairs).length), j < i →
          toolCount ((toolsSystemTier pairs).get ⟨j, hj⟩) < toolCount r) := by
  constructor
  · unfold toolsSystemTier filterRequestsWithTools filterNonHaikuRequests
    rw [filter_filter_eq, filter_filter_eq]
  · obtain ⟨m, hm⟩ := firstMaxBy_isSome toolCount (toolsSystemTier pairs) h
    have hsorted : (sortByLe toolCountLe (toolsSystemTier pairs)).head? = some m :=
      (headq_sortByLe toolCount (toolsSystemTier pairs)).trans hm
    have hsel : selectBestRequest pairs = .ok m := by
      simp [selectBestRequest, hsorted]
    obtain ⟨i, hi, hget, hmax, hstrict⟩ := firstMaxBy_spec toolCount _ m hm
    exact ⟨m, hsel, i, hi, hget, hmax, hstrict⟩

/-- C4 (amended): the selector never returns a record whose model identifier
is missing, empty, or contains "haiku" case-insensitively; when the preferred
tier is empty it returns the first survivor in capture order; and it fails
with the not-found error exactly when no record has a present, non-empty,
non-haiku model identifier. -/
theorem selectBestRequest_filter_spec (pairs : List RequestResponsePair) :
    (∀ r, selectBestRequest pairs = .ok r →
      ∃ m, r.request.body.model = some m ∧ m ≠ "" ∧ isHaiku m = false) ∧
    (toolsSystemTier pairs = [] →
      ∀ r, (filterNonHaikuRequests pairs).head? = some r →
        selectBestRequest pairs = .ok r) ∧
    ((∃ e, selectBestRequest pairs = .error e) ↔
      ∀ p ∈ pairs, ¬∃ m, p.request.body.model = some m ∧ m ≠ "" ∧ isHaiku m = false) := by
  refine ⟨?_, ?_, ?_⟩
  · intro r hr
    have hmem := selectBestRequest_mem_nonHaiku pairs r hr
    exact (nonHaikuPred_iff r).mp (List.of_mem_filter hmem)
  · intro htier r hr
    simp [selectBestRequest, htier, sortByLe, hr]
  · constructor
    · rintro ⟨e, he⟩
      intro p hp hex
      rcases hs : (sortByLe toolCountLe (toolsSystemTier pairs)).head? with _ | r0
      · rcases hf : (filterNonHaikuRequests pairs).head? with _ | r1
        · have hnil : filterNonHaikuRequests pairs = [] := by
            rcases hl : filterNonHaikuRequests pairs with _ | ⟨x, xs⟩
            · rfl
            · rw [hl] at hf; simp at hf
          have hpred : nonHaikuPred p = true := (nonHaikuPred_iff p).mpr hex
          have : p ∈ filterNonHaikuRequests pairs :=
            List.mem_filter.mpr ⟨hp, hpred⟩
          rw [hnil] at this
          simp at this
        · simp [selectBestRequest, hs, hf] at he
      · simp [selectBestRequest, hs] at he
    · intro hall
      have hnil : filterNonHaikuRequests pairs = [] := by
        unfold filterNonHaikuRequests
        rw [List.filter_eq_nil_iff]
        intro p hp
        intro htrue
        exact hall p hp ((nonHaikuPred_iff p).mp htrue)
      have htier : toolsSystemTier pairs = [] := by
        unfold toolsSystemTier filterRequestsWithTools
        rw [hnil]
        rfl
      exact ⟨"No non-Haiku request found in the log", by simp [selectBestRequest, htier, hnil, sortByLe]⟩

/-! ## Concrete records for counterexamples and witnesses -/

/-- A request/response pair around a given body. -/
def mkPair (b : RequestBody) : RequestResponsePair :=
  ⟨⟨0, "POST", "https://api.anthropic.com/v1/messages", b⟩, Json.null⟩

def cexTool : Tool := ⟨"Bash", "Run a command", Json.null⟩

/-- Survivor with no tools and no system field. -/
def cexP1 : RequestResponsePair := mkPair ⟨some "claude-opus", [], none, none⟩

/-- Survivor with one tool and a present but EMPTY system-block list. -/
def cexP2 : RequestResponsePair := mkPair ⟨some "claude-opus", [], some [], some [cexTool]⟩

def cexPairs : List RequestResponsePair := [cexP1, cexP2]

/-- The preferred tier as the claim words it (a refinement definition written
from the spec words, for comparison with the code's `toolsSystemTier`):
records with a non-empty tool list AND a non-empty system-block list. -/
def claimedTier (pairs : List RequestResponsePair) : List RequestResponsePair :=
  (filterRequestsWithTools (filterNonHaikuRequests pairs)).filter
    (fun p => match p.request.body.system with
      | some (_ :: _) => true
      | _ => false)

/-- C1 counterexample: a record with a present but empty system-block list is
kept by the code's preferred tier and returned, though the claim's tier
(non-empty system-block list) excludes it and would make the selector fall
back to the first survivor `cexP1`. -/
theorem selectBestRequest_tier_cex :
    claimedTier cexPairs = [] ∧
    toolsSystemTier cexPairs = [cexP2] ∧
    cexP2.request.body.system = some [] ∧
    (filterNonHaikuRequests cexPairs).head? = some cexP1 ∧
    selectBestRequest cexPairs = .ok cexP2 ∧
    cexP1 ≠ cexP2 :=
  ⟨rfl, rfl, rfl, rfl, rfl,
    fun h => Option.noConfusion (congrArg (fun p => p.request.body.system) h)⟩

def wSys : SystemBlock := ⟨"text", "You are Claude Code", none⟩

def wT1 : Tool := ⟨"Bash", "Run a command", Json.null⟩

def wT2 : Tool := ⟨"Edit", "Edit a file", Json.null⟩

def wBody1 : RequestBody := ⟨some "claude-opus", [], some [wSys], some [wT1]⟩

def wBody2 : RequestBody := ⟨some "claude-opus", [], some [wSys], some [wT1, wT2]⟩

def wPairs : List RequestResponsePair := [mkPair wBody1, mkPair wBody2]

/-- Witness for `selectBestRequest_best`: two tiered records, the 2-tool one
wins. -/
theorem selectBestRequest_best_witness :
    toolsSystemTier wPairs =
      wPairs.filter (fun p => nonHaikuPred p && (toolsPred p && systemTruthy p)) ∧
    ∃ r, selectBestRequest wPairs = .ok r ∧
      ∃ i, ∃ hi : i < (toolsSystemTier wPairs).length,
        (toolsSystemTier wPairs).get ⟨i, hi⟩ = r ∧
        (∀ j (hj : j < (toolsSystemTier wPairs).length),
          toolCount ((toolsSystemTier wPairs).get ⟨j, hj⟩) ≤ toolCount r) ∧
        (∀ j (hj : j < (toolsSystemTier wPairs).length), j < i →
          toolCount ((toolsSystemTier wPairs).get ⟨j, hj⟩) < toolCount r) :=
  selectBestRequest_best wPairs (List.cons_ne_nil (mkPair wBody1) [mkPair wBody2])

/-- A record whose model identifier is present but the empty string. -/
def cexEmptyModel : RequestResponsePair := mkPair ⟨some "", [], none, none⟩

/-- C4 counterexample: the empty-string model is neither missing nor contains
"haiku", yet the selector discards it (JS truthiness) and raises the
not-found error, refuting the claimed "exactly when no record survives the
haiku/missing-model filter". -/
theorem selectBestRequest_missing_cex :
    cexEmptyModel.request.body.model = some "" ∧
    isHaiku "" = false ∧
    selectBestRequest [cexEmptyModel] = .error "No non-Haiku request found in the log" :=
  ⟨rfl, rfl, rfl⟩

def wbFallback : RequestBody := ⟨some "claude-opus", [], none, none⟩

/-- Witness for `selectBestRequest_filter_spec`: empty tier, one survivor,
fallback returns it. -/
theorem selectBestRequest_filter_witness :
    selectBestRequest [mkPair wbFallback] = .ok (mkPair wbFallback) :=
  (selectBestRequest_filter_spec [mkPair wbFallback]).2.1 rfl (mkPair wbFallback) rfl

/-- C7: `filterAndSortTools` yields the empty list on an absent input, and
otherwise exactly the non-`mcp__` tools (duplicates preserved, input not
consumed) sorted ascending by name; on the round-trip example it returns
`[a, b]`. -/
theorem filterAndSortTools_spec :
    filterAndSortTools none = [] ∧
    (∀ ts : List Tool,
      List.Perm (filterAndSortTools (some ts)) (ts.filter notMcp) ∧
      List.Pairwise (fun a b : Tool => nameLe a b = true) (filterAndSortTools (some ts))) ∧
    filterAndSortTools
        (some [⟨"mcp__x", "", Json.null⟩, ⟨"b", "", Json.null⟩, ⟨"a", "", Json.null⟩]) =
      [⟨"a", "", Json.null⟩, ⟨"b", "", Json.null⟩] := by
  refine ⟨rfl, ?_, rfl⟩
  intro ts
  exact ⟨sortByLe_perm nameLe (ts.filter notMcp),
    sortByLe_pairwise nameLe nameLe_total nameLe_trans (ts.filter notMcp)⟩

/-- C10: an all-whitespace capture (including the empty one) parses to the
empty sequence without error, and the failure is deferred to the selector,
which raises its no-qualifying-request error on the empty sequence. -/
theorem parseJsonl_blank_spec {α : Type} (d : List Char → Except String α)
    (content : List Char) (h : ∀ c ∈ content, isWs c = true) :
    parseJsonl d content = .ok [] ∧
    selectBestRequest [] = .error "No non-Haiku request found in the log" := by
  have htrim : trimChars content = [] := by
    unfold trimChars
    rw [List.dropWhile_eq_nil_iff.mpr h]
    rfl
  have hlines : nonBlankLines content = [] := by
    unfold nonBlankLines
    rw [htrim]
    rfl
  constructor
  · unfold parseJsonl
    rw [hlines]
    rfl
  · rfl

/-- Witness for `parseJsonl_blank_spec` at a concrete whitespace capture. -/
theorem parseJsonl_blank_witness :
    parseJsonl lenDecoder ((" \n ").toList) = .ok [] ∧
    selectBestRequest [] = .error "No non-Haiku request found in the log" :=
  parseJsonl_blank_spec lenDecoder ((" \n ").toList) (by decide)

/-! ## Content normalizer (`src/core/content-extractor.ts`) -/

/-- `extractUserMessage` of `content-extractor.ts` (the spec's `extractText`):
absent message gives the empty string; string content is returned verbatim;
a block list keeps the blocks tagged "text", takes each text (`item.text || ""`
defaults a missing text to the empty string) and joins with newline; any
other shape gives the empty string. -/
def extractUserMessage : Option Message → String
  | none => ""
  | some m =>
    match m.content with
    | .str s => s
    | .blocks l =>
        String.intercalate "\n"
          ((l.filter (fun b => b.type == "text")).map (fun b => b.text.getD ""))
    | .other => ""

/-- C6: `extractUserMessage` is total (a function into `String`, never an
error): empty for an absent message, verbatim for string content, the
newline-join of the "text" block texts for list content (so an empty list or
a list without "text" blocks gives the empty string), and empty for any other
content shape. -/
theorem extractUserMessage_total :
    extractUserMessage none = "" ∧
    (∀ role s, extractUserMessage (some ⟨role, .str s⟩) = s) ∧
    (∀ role l, extractUserMessage (some ⟨role, .blocks l⟩) =
      String.intercalate "\n"
        ((l.filter (fun b => b.type == "text")).map (fun b => b.text.getD ""))) ∧
    (∀ role, extractUserMessage (some ⟨role, .blocks []⟩) = "") ∧
    (∀ role l, (∀ b ∈ l, b.type ≠ "text") →
      extractUserMessage (some ⟨role, .blocks l⟩) = "") ∧
    (∀ role, extractUserMessage (some ⟨role, MsgContent.other⟩) = "") := by
  refine ⟨rfl, fun role s => rfl, fun role l => rfl, fun role => rfl, ?_, fun role => rfl⟩
  intro role l h
  have hfil : l.filter (fun b => b.type == "text") = [] := by
    rw [List.filter_eq_nil_iff]
    intro b hb
    simp [h b hb]
  simp only [extractUserMessage, hfil, List.map_nil]
  rfl

/-- Witness for `extractUserMessage_total`: a block list with no "text" block
normalizes to the empty string. -/
theorem extractUserMessage_total_witness :
    extractUserMessage (some ⟨"user", MsgContent.blocks [⟨"image", none, none⟩]⟩) = "" :=
  extractUserMessage_total.2.2.2.2.1 "user" [⟨"image", none, none⟩] (by decide)

/-! ## Report formatter (`src/core/output-formatter.ts`) -/

/-- The `/^(#+)(\s+)/` test of `indentHeaders` on one line: one or more `#`
characters at line start followed by at least one whitespace character. -/
def headerMatch (l : List Char) : Bool :=
  match l with
  | [] => false
  | c :: _ =>
    (c == '#') && (match l.dropWhile (fun x => x == '#') with
      | [] => false
      | d :: _ => isWs d)

/-- One line of `indentHeaders`: prepend `#` on a match, else unchanged. -/
def indentLine (l : List Char) : List Char :=
  if headerMatch l then '#' :: l else l

/-- JS `join("\n")`. -/
def joinNl : List (List Char) → List Char
  | [] => []
  | [l] => l
  | l :: l2 :: rest => l ++ '\n' :: joinNl (l2 :: rest)

/-- `indentHeaders` of `output-formatter.ts`:
`text.split("\n").map(per-line step).join("\n")`. -/
def indentHeadersL (text : List Char) : List Char :=
  joinNl ((splitNl text).map indentLine)

/-- `indentHeaders` at the `String` boundary. -/
def indentHeaders (s : String) : String := String.mk (indentHeadersL s.data)

def spacesN (n : Nat) : String := String.mk (List.replicate n ' ')

def jsonQuoteChar (c : Char) : String :=
  if c = '"' then "\\\""
  else if c = '\\' then "\\\\"
  else if c = '\n' then "\\n"
  else if c = '\t' then "\\t"
  else if c = '\r' then "\\r"
  else String.mk [c]

def jsonQuote (s : String) : String :=
  "\"" ++ String.join (s.data.map jsonQuoteChar) ++ "\""

mutual

/-- Models the runtime serializer `JSON.stringify(value, null, 2)` (a platform
builtin): pretty-printing with two spaces of indentation per nesting level,
`ind` being the current level. -/
def jsonRender : Nat → Json → String
  | _, .null => "null"
  | _, .bool b => if b then "true" else "false"
  | _, .num n => toString n
  | _, .str s => jsonQuote s
  | _, .arr [] => "[]"
  | ind, .arr (x :: xs) =>
      "[\n" ++ String.intercalate ",\n" (jsonRenderItems (ind + 1) (x :: xs)) ++ "\n"
        ++ spacesN (2 * ind) ++ "]"
  | _, .obj [] => "\x7b\x7d"
  | ind, .obj (f :: fs) =>
      "\x7b\n" ++ String.intercalate ",\n" (jsonRenderFields (ind + 1) (f :: fs)) ++ "\n"
        ++ spacesN (2 * ind) ++ "\x7d"

def jsonRenderItems : Nat → List Json → List String
  | _, [] => []
  | ind, x :: xs => (spacesN (2 * ind) ++ jsonRender ind x) :: jsonRenderItems ind xs

def jsonRenderFields : Nat → List (String × Json) → List String
  | _, [] => []
  | ind, (k, v) :: fs =>
      (spacesN (2 * ind) ++ jsonQuote k ++ ": " ++ jsonRender ind v)
        :: jsonRenderFields ind fs

end

/-- `OutputData` of `output-formatter.ts`. -/
structure OutputData where
  versionLabel : String
  releaseDate : String
  userMessage : String
  systemPrompt : String
  tools : List Tool

/-- `formatTools` of `output-formatter.ts`: each tool as a subheading, its
description header-indented twice, its schema pretty-printed, entries joined
by a horizontal rule. -/
def formatTools (tools : List Tool) : String :=
  String.intercalate "\n\n---\n\n" (tools.map (fun tool =>
    "## " ++ tool.name ++ "\n\n" ++ indentHeaders (indentHeaders tool.description)
      ++ "\n" ++ jsonRender 0 tool.input_schema))

/-- `formatOutput` of `output-formatter.ts`: the whole template document. -/
def formatOutput (d : OutputData) : String :=
  "# Claude Code Version " ++ d.versionLabel ++ "\n\nRelease Date: " ++ d.releaseDate
    ++ "\n\n# User Message\n\n" ++ indentHeaders d.userMessage
    ++ "\n\n# System Prompt\n\n" ++ indentHeaders d.systemPrompt
    ++ "\n\n# Tools\n\n" ++ formatTools d.tools ++ "\n"

theorem splitNl_ne_nil : ∀ t : List Char, splitNl t ≠ [] := by
  intro t
  induction t with
  | nil => simp [splitNl]
  | cons c rest ih =>
    by_cases hc : c = '\n'
    · simp [splitNl, hc]
    · simp only [splitNl, if_neg hc]
      rcases hs : splitNl rest with _ | ⟨p, ps⟩
      · simp
      · simp

theorem noNl_mem_splitNl : ∀ (t l : List Char), l ∈ splitNl t → ('\n') ∉ l := by
  intro t
  induction t with
  | nil =>
    intro l hl
    simp [splitNl] at hl
    simp [hl]
  | cons c rest ih =>
    intro l hl
    by_cases hc : c = '\n'
    · simp only [splitNl, if_pos hc] at hl
      rcases List.mem_cons.mp hl with rfl | h2
      · simp
      · exact ih l h2
    · simp only [splitNl, if_neg hc] at hl
      rcases hs : splitNl rest with _ | ⟨p, ps⟩
      · rw [hs] at hl
        simp at hl
        subst hl
        simp only [List.mem_singleton]
        exact fun he => hc he.symm
      · rw [hs] at hl
        rcases List.mem_cons.mp hl with rfl | h2
        · intro hmem
          rcases List.mem_cons.mp hmem with h3 | h3
          · exact hc h3.symm
          · exact ih p (by rw [hs]; exact List.mem_cons_self p ps) h3
        · exact ih l (by rw [hs]; exact List.mem_cons_of_mem p h2)

theorem splitNl_single : ∀ l : List Char, ('\n') ∉ l → splitNl l = [l] := by
  intro l
  induction l with
  | nil => intro _; rfl
  | cons c r ih =>
    intro h
    have hc : ¬(c = '\n') := fun he => h (by rw [he]; exact List.mem_cons_self _ _)
    have hr : ('\n') ∉ r := fun hm => h (List.mem_cons_of_mem c hm)
    simp only [splitNl, if_neg hc, ih hr]

theorem splitNl_append :
    ∀ (x t : List Char), ('\n') ∉ x → splitNl (x ++ '\n' :: t) = x :: splitNl t := by
  intro x
  induction x with
  | nil =>
    intro t _
    simp [splitNl]
  | cons c r ih =>
    intro t h
    have hc : ¬(c = '\n') := fun he => h (by rw [he]; exact List.mem_cons_self _ _)
    have hr : ('\n') ∉ r := fun hm => h (List.mem_cons_of_mem c hm)
    simp only [List.cons_append, splitNl, if_neg hc, List.append_eq, ih t hr]

theorem splitNl_joinNl :
    ∀ ls : List (List Char), ls ≠ [] → (∀ l ∈ ls, ('\n') ∉ l) →
      splitNl (joinNl ls) = ls := by
  intro ls
  induction ls with
  | nil => intro h _; exact absurd rfl h
  | cons x rest ih =>
    intro _ hall
    cases rest with
    | nil => exact splitNl_single x (hall x (List.mem_cons_self _ _))
    | cons y rs =>
      have hx : ('\n') ∉ x := hall x (List.mem_cons_self _ _)
      have hrest : ∀ l ∈ y :: rs, ('\n') ∉ l :=
        fun l hl => hall l (List.mem_cons_of_mem x hl)
      show splitNl (x ++ '\n' :: joinNl (y :: rs)) = x :: y :: rs
      rw [splitNl_append x (joinNl (y :: rs)) hx, ih (by simp) hrest]

theorem dropHash_replicate :
    ∀ (n : Nat) (c : Char) (r : List Char), (c == '#') = false →
      (List.replicate n '#' ++ c :: r).dropWhile (fun x => x == '#') = c :: r := by
  intro n
  induction n with
  | zero => intro c r hc; simp [List.dropWhile_cons, hc]
  | succ k ih =>
    intro c r hc
    simp only [List.replicate_succ, List.cons_append, List.dropWhile_cons]
    simp [ih c r hc]

theorem ws_not_hash {c : Char} (h : isWs c = true) : (c == '#') = false := by
  rcases hb : c == '#' with _ | _
  · rfl
  · have hce : c = '#' := beq_iff_eq.mp hb
    rw [hce] at h
    exact absurd h (by decide)

/-- C8: `indentHeaders` prepends exactly one `#` to every line made of one or
more `#` characters followed by required whitespace and leaves every other
line unchanged, working line-by-line over the newline-split text; on the
claim's examples it yields `## H` and, applied twice, `### H`. -/
theorem indentHeaders_spec :
    (∀ (n : Nat) (c : Char) (r : List Char), 1 ≤ n → isWs c = true →
      indentLine (List.replicate n '#' ++ c :: r) =
        '#' :: (List.replicate n '#' ++ c :: r)) ∧
    (∀ l : List Char, (∀ (n : Nat) (c : Char) (r : List Char),
        ¬(1 ≤ n ∧ isWs c = true ∧ l = List.replicate n '#' ++ c :: r)) →
      indentLine l = l) ∧
    (∀ s : String, splitNl (indentHeaders s).data = (splitNl s.data).map indentLine) ∧
    indentHeaders ("# H\nbody") = ("## H\nbody") ∧
    indentHeaders (indentHeaders ("# H\nbody")) = ("### H\nbody") := by
  refine ⟨?_, ?_, ?_, by decide, by decide⟩
  · intro n c r hn hc
    have hbeq := ws_not_hash hc
    rcases n with _ | k
    · omega
    · have hdrop : (('#' :: (List.replicate k '#' ++ c :: r)).dropWhile (fun x => x == '#'))
          = c :: r := by
        have := dropHash_replicate (k + 1) c r hbeq
        simpa [List.replicate_succ] using this
      have hm : headerMatch (List.replicate (k + 1) '#' ++ c :: r) = true := by
        simp only [List.replicate_succ, List.cons_append, headerMatch, hdrop]
        simp [hc]
      simp [indentLine, hm]
  · intro l h
    by_cases hm : headerMatch l = true
    · exfalso
      cases l with
      | nil => simp [headerMatch] at hm
      | cons c0 rest =>
        simp only [headerMatch, Bool.and_eq_true] at hm
        obtain ⟨h1, h2⟩ := hm
        rcases hd : (c0 :: rest).dropWhile (fun x => x == '#') with _ | ⟨d, tail⟩
        · rw [hd] at h2
          simp at h2
        · rw [hd] at h2
          have hc0 : c0 = '#' := beq_iff_eq.mp h1
          have htw : (c0 :: rest).takeWhile (fun x => x == '#')
              = List.replicate ((c0 :: rest).takeWhile (fun x => x == '#')).length '#' := by
            apply List.eq_replicate_of_mem
            intro b hb
            have hb2 := List.mem_takeWhile_imp hb
            simpa using hb2
          have hlen : 1 ≤ ((c0 :: rest).takeWhile (fun x => x == '#')).length := by
            rw [List.takeWhile_cons_of_pos (by simp [hc0])]
            simp
          have hsplit := List.takeWhile_append_dropWhile
            (p := fun x : Char => x == '#') (l := c0 :: rest)
          rw [hd, htw] at hsplit
          exact h ((c0 :: rest).takeWhile (fun x => x == '#')).length d tail
            ⟨hlen, h2, hsplit.symm⟩
    · simp [indentLine, hm]
  · intro s
    show splitNl (joinNl ((splitNl s.data).map indentLine)) = (splitNl s.data).map indentLine
    apply splitNl_joinNl
    · intro hnil
      exact splitNl_ne_nil s.data (List.map_eq_nil_iff.mp hnil)
    · intro l hl
      rcases List.mem_map.mp hl with ⟨l0, hl0, rfl⟩
      have hno := noNl_mem_splitNl s.data l0 hl0
      unfold indentLine
      split
      · intro hmem
        rcases List.mem_cons.mp hmem with h3 | h3
        · exact absurd h3.symm (by decide)
        · exact hno h3
      · exact hno

/-- Witness for `indentHeaders_spec`: a plain body line passes unchanged. -/
theorem indentHeaders_spec_witness :
    indentLine (("body").toList) = ("body").toList :=
  indentHeaders_spec.2.1 (("body").toList) (by
    intro n c r hx
    obtain ⟨hn, -, heq⟩ := hx
    rcases n with _ | k
    · omega
    · rw [List.replicate_succ, List.cons_append] at heq
      exact absurd (List.head_eq_of_cons_eq heq) (by decide))

/-- The given segments occur in the document, in order and without
overlapping, each separated from the previous by arbitrary filler. -/
def appearsInOrder : List (List Char) → List Char → Prop
  | [], _ => True
  | h :: hs, doc => ∃ pre rest, doc = pre ++ h ++ rest ∧ appearsInOrder hs rest

/-- C9: `formatOutput` renders one document with the sections in order
Title (with version label), Release Date, User Message (reindented once),
System Prompt (reindented once), Tools; each tool renders as a subheading,
its doubly reindented description and its pretty-printed schema, consecutive
tools separated by a horizontal rule; an empty tool list still renders the
Tools section with empty content. -/
theorem formatOutput_sections (d : OutputData) :
    appearsInOrder
      [ ("# Claude Code Version ").data ++ d.versionLabel.data,
        ("Release Date: ").data ++ d.releaseDate.data,
        ("# User Message").data,
        (indentHeaders d.userMessage).data,
        ("# System Prompt").data,
        (indentHeaders d.systemPrompt).data,
        ("# Tools").data,
        (formatTools d.tools).data ]
      (formatOutput d).data ∧
    formatTools [] = "" ∧
    (∀ ts : List Tool, formatTools ts = String.intercalate "\n\n---\n\n" (ts.map (fun t =>
      "## " ++ t.name ++ "\n\n" ++ indentHeaders (indentHeaders t.description)
        ++ "\n" ++ jsonRender 0 t.input_schema))) ∧
    (∀ t1 t2 : Tool,
      formatTools [t1, t2] = formatTools [t1] ++ "\n\n---\n\n" ++ formatTools [t2]) := by
  refine ⟨?_, rfl, fun ts => rfl, fun t1 t2 => rfl⟩
  have s1 : ("\n\nRelease Date: ").data = ("\n\n").data ++ ("Release Date: ").data := rfl
  have s2 : ("\n\n# User Message\n\n").data
      = ("\n\n").data ++ ("# User Message").data ++ ("\n\n").data := rfl
  have s3 : ("\n\n# System Prompt\n\n").data
      = ("\n\n").data ++ ("# System Prompt").data ++ ("\n\n").data := rfl
  have s4 : ("\n\n# Tools\n\n").data
      = ("\n\n").data ++ ("# Tools").data ++ ("\n\n").data := rfl
  have hdoc : (formatOutput d).data =
      [] ++ (("# Claude Code Version ").data ++ d.versionLabel.data) ++
      (("\n\n").data ++ (("Release Date: ").data ++ d.releaseDate.data) ++
      (("\n\n").data ++ ("# User Message").data ++
      (("\n\n").data ++ (indentHeaders d.userMessage).data ++
      (("\n\n").data ++ ("# System Prompt").data ++
      (("\n\n").data ++ (indentHeaders d.systemPrompt).data ++
      (("\n\n").data ++ ("# Tools").data ++
      (("\n\n").data ++ (formatTools d.tools).data ++ ("\n").data))))))) := by
    simp only [formatOutput, String.data_append, s1, s2, s3, s4, List.append_assoc,
      List.nil_append, List.cons_append]
  rw [hdoc]
  exact ⟨_, _, rfl, _, _, rfl, _, _, rfl, _, _, rfl, _, _, rfl, _, _, rfl, _, _, rfl,
    _, _, rfl, trivial⟩

end CCH
